import Mathlib

/-!
Verification of the parallel prefix-range listing accelerator from
`src/Disks/ObjectStorages/S3/S3ObjectStorage.cpp`.

The development shallowly embeds the core of the accelerator:

* `ltKey` — the byte-wise lexicographic comparison `std::string::operator<`
  restricted to the key strings (all alphabet symbols are ASCII, so
  `Char` order coincides with byte order);
* `alphabet`, `charIndex`, `encodeKey`, `decodeNat`, `decodeInt`,
  `scaleShrink` — `FileArithmetics::FileRepresentation` (construction from a
  string, `toString`, and the `*=`(float) scaling via the decimal-float
  intermediate, modelled as exact rational scaling truncated toward zero,
  which agrees with `cpp_dec_float_100` whenever the product fits in 100
  significant digits);
* `QueryCache` with `getBatchFrom`, `insertObjects`, `build`, `clear`;
* `runSubRec` — `S3IteratorAsync::runSubrequest` (the worker loop, with an
  explicit fuel bound standing in for the unbounded `while (true)`);
* `fillCache` — `S3IteratorAsync::fillCache` (workers are run sequentially;
  the pool's `wait()` before `cache.build()` is reflected by `build` being
  applied only after every worker's trace has been folded into the cache);
* `step` — `S3IteratorAsync::getBatchAndCheckNext`.  Places where the C++
  has undefined behaviour (`objects.back()` on an empty vector) or throws
  (`BAD_ARGUMENTS`, S3 errors, `std::unordered_map::at`) are modelled as
  explicit `Except` errors.
-/

namespace S3V

/-! ## Keys and lexicographic order -/

/-- S3 object keys, as the character sequence of the C++ `std::string`. -/
abbrev Key := List Char

/-- `std::string::operator<`: byte-wise lexicographic comparison.  All key
characters handled by the arithmetic are ASCII, where `Char` order is byte
order. -/
def ltKey : Key → Key → Bool
  | [], [] => false
  | [], _ :: _ => true
  | _ :: _, [] => false
  | a :: as, b :: bs => if a < b then true else if b < a then false else ltKey as bs

/-- `a <= b` on keys, i.e. `!(b < a)`; the order used by `std::sort` and
`std::upper_bound` over `extracted_keys`. -/
def leKey (a b : Key) : Prop := ltKey b a = false

instance : DecidableRel leKey := fun a b => inferInstanceAs (Decidable (ltKey b a = false))

/-- Strict key order as a proposition. -/
def keyLT (a b : Key) : Prop := ltKey a b = true

instance : DecidableRel keyLT := fun a b => inferInstanceAs (Decidable (ltKey a b = true))

/-! ## FileArithmetics -/

/-- The fixed 64-symbol alphabet of `FileArithmetics::alphabet`. -/
def alphabet : List Char :=
  "!0123456789ABCDEFGHIJKLMNOPQRSTUVWXYZabcdefghijklmnopqrstuvwxyz~".toList

/-- `std::string_view::find`: index of the first occurrence of `c`, `none`
standing for `npos`. -/
def charIndexAux (c : Char) : List Char → Option Nat
  | [] => none
  | x :: xs => if x = c then some 0 else (charIndexAux c xs).map (· + 1)

/-- Index of a character in the alphabet (`alphabet.find(elem)` with the
`npos` check from the `FileRepresentation` constructor). -/
def charIndex (c : Char) : Option Nat := charIndexAux c alphabet

/-- The accumulating loop of `FileRepresentation(const std::string &)`:
`number_representation = number_representation * alphabet.size() + converted_number`,
with `none` modelling the thrown `BAD_ARGUMENTS` on an out-of-alphabet
character. -/
def encodeAux (n : Nat) : Key → Option Nat
  | [] => some n
  | c :: s =>
    match charIndex c with
    | none => none
    | some i => encodeAux (n * alphabet.length + i) s

/-- `FileRepresentation(const std::string &)`: the base-64 value of a key. -/
def encodeKey (s : Key) : Option Nat := encodeAux 0 s

/-- The digit sequence of a key (used only in proofs). -/
def keyDigits (s : Key) : Option (List Nat) := s.mapM charIndex

/-- Base-64 value of a digit list. -/
def keyVal (ds : List Nat) : Nat := ds.foldl (fun n d => n * 64 + d) 0

/-- The `while (current > 0)` loop of `FileRepresentation::toString`, written
with an explicit iteration bound (the loop runs at most `n` times since the
value shrinks by a factor 64 each round).  Digits are emitted
least-significant first and the C++ reverses at the end; appending the final
symbol on the right is the same computation. -/
def decodeNatAux : Nat → Nat → Key
  | 0, _ => []
  | fuel + 1, n =>
    if n = 0 then []
    else decodeNatAux fuel (n / alphabet.length) ++ [alphabet.getD (n % alphabet.length) '!']

/-- `FileRepresentation::toString` on a non-negative value. -/
def decodeNat (n : Nat) : Key := decodeNatAux n n

/-- `FileRepresentation::toString` on a signed `cpp_int`: the loop guard
`current > 0` makes every non-positive value decode to the empty string. -/
def decodeInt (i : Int) : Key := if i ≤ 0 then [] else decodeNat i.toNat

/-- `operator*=(float)`: the value is carried into a high-precision decimal
float, multiplied, and cast back to an integer (truncation toward zero).
The float factor is modelled by its exact rational value; the product is
formed exactly and truncated toward zero, which is what
`static_cast<cpp_int>(cpp_dec_float_100)` produces whenever the product fits
in 100 significant decimal digits. -/
def scaleShrink (d : Int) (a : ℚ) : Int := Int.tdiv (d * a.num) (a.den : Int)

/-! ## Data model -/

/-- `Aws::S3::Model::Object`: the fields the iterator reads. -/
structure S3Object where
  key : Key
  size : Nat
  lastModifiedEpoch : Nat
  etag : List Char
deriving DecidableEq

/-- One page returned by `ListObjectsV2`: `GetContents()` and
`GetIsTruncated()`. -/
structure Page where
  objects : List S3Object
  truncated : Bool
deriving DecidableEq

/-- The varying parts of a `ListObjectsV2Request` (bucket and prefix are
fixed per iterator and live in `Config`). -/
structure SubReq where
  startAfter : Key
  maxKeys : Nat
deriving DecidableEq

/-- An S3 error outcome (`outcome.GetError()`), kept opaque. -/
structure S3Err where
  code : Nat
deriving DecidableEq

/-- The endpoint: a deterministic view of `client->ListObjectsV2`. -/
abbrev Endpoint := SubReq → Except S3Err Page

/-- Failure modes of the embedded code.  `badInput` is the thrown
`BAD_ARGUMENTS`; `emptyBack` marks `objects.back()`/`objects[0]` on an empty
vector (undefined behaviour in the C++); `mapMiss` is
`std::unordered_map::at` on a missing key; `s3` re-raises an endpoint error;
`fuel` is a modelling artifact bounding the worker loop. -/
inductive IterErr where
  | badInput
  | emptyBack
  | mapMiss
  | s3 (e : S3Err)
  | fuel
deriving DecidableEq

/-- The iterator configuration captured at construction. -/
structure Config where
  prefixPath : Key
  maxListSize : Nat
  useParallelListing : Bool
  numParallelRequests : Nat
  multiplicationLength : ℚ
  fuel : Nat

/-! ## QueryCache -/

/-- `S3IteratorAsync::QueryCache`.  `queue` is the lock-free staging stack
(as the multiset of staged objects, in insertion order); `key_to_object` is
the unordered map, as a function. -/
structure QueryCache where
  extracted_keys : List Key
  key_to_object : Key → Option S3Object
  queue : List S3Object

/-- A freshly constructed cache. -/
def QueryCache.empty : QueryCache := ⟨[], fun _ => none, []⟩

/-- The body of `getBatchFrom`'s loop: push the current key, then break when
`result.size() == count`.  Note the check runs after the push, so with
`count = 0` the loop never breaks. -/
def batchTake (count : Nat) : List Key → Nat → List Key
  | [], _ => []
  | k :: rest, sz => if sz + 1 = count then [k] else k :: batchTake count rest (sz + 1)

/-- `QueryCache::getBatchFrom`.  `std::upper_bound` over the sorted
`extracted_keys` yields the suffix of keys strictly greater than
`filename_after`, here `dropWhile`; `key_to_object.at` is the `mapM`
lookup, `none` modelling the throw on a missing key. -/
def QueryCache.getBatchFrom (c : QueryCache) (after : Key) (count : Nat) :
    Option (List S3Object) :=
  (batchTake count (c.extracted_keys.dropWhile (fun k => !ltKey after k)) 0).mapM
    c.key_to_object

/-- `QueryCache::insertObjects`: stage objects on the lock-free stack. -/
def QueryCache.insertObjects (c : QueryCache) (objects : List S3Object) : QueryCache :=
  { c with queue := c.queue ++ objects }

/-- `std::unique` over a sorted vector: drop adjacent duplicates.  (Equal
keys carry identical objects within a listing epoch, so keeping the first or
the last of a run is indistinguishable.) -/
def uniqAdj : List Key → List Key
  | [] => []
  | [a] => [a]
  | a :: b :: rest => if a = b then uniqAdj (b :: rest) else a :: uniqAdj (b :: rest)

/-- `QueryCache::build`: drain the staging queue (each drained object pushes
its key onto `extracted_keys` and overwrites `key_to_object[key]`), then
`std::sort` and `std::unique` the key vector.  The C++ pops the lock-free
stack in an unspecified order; the drain order only decides which of several
identical objects for one key the map retains. -/
def QueryCache.build (c : QueryCache) : QueryCache :=
  { extracted_keys :=
      uniqAdj (List.insertionSort leKey (c.extracted_keys ++ c.queue.map (fun o => o.key))),
    key_to_object :=
      c.queue.foldl (fun m o => fun k => if k = o.key then some o else m k) c.key_to_object,
    queue := [] }

/-- `QueryCache::clear`: clears `extracted_keys` and `key_to_object`.  The
staging stack `queue_` is not touched by the C++ `clear`. -/
def QueryCache.clear (c : QueryCache) : QueryCache :=
  { c with extracted_keys := [], key_to_object := fun _ => none }

/-- Well-formedness tying the key vector to the map: every extracted key is
mapped to an object carrying exactly that key.  It holds for the empty cache
and is maintained by `build`, `clear` and `insertObjects`. -/
def CacheWF (c : QueryCache) : Prop :=
  ∀ k ∈ c.extracted_keys, ∃ o, c.key_to_object k = some o ∧ o.key = k

/-! ## Subrange workers and fillCache -/

/-- One iteration of `runSubrequest` as observed from outside: the request
issued and the page received (whose contents are inserted into the cache). -/
structure SubStep where
  req : SubReq
  page : Page
deriving DecidableEq

/-- All objects a worker trace inserts into the cache (each page is inserted
right after it is received, before the termination test). -/
def stepsObjects (steps : List SubStep) : List S3Object :=
  (steps.map (fun st => st.page.objects)).flatten

/-- The termination test of `runSubrequest`, in the C++ short-circuit order:
stop on `!truncated`, else on an empty page, else when
`end_file <= FileRepresentation(last_key.substr(prefix_len))`; constructing
the representation of an out-of-alphabet key throws `BAD_ARGUMENTS`. -/
def subTermCheck (cfg : Config) (endFile : Int) (page : Page) : Except IterErr Bool :=
  if page.truncated = false then .ok true
  else
    match page.objects.getLast? with
    | none => .ok true
    | some last =>
      match encodeKey (last.key.drop cfg.prefixPath.length) with
      | none => .error .badInput
      | some n => .ok (decide (endFile ≤ (n : Int)))

/-- The `while (true)` loop of `S3IteratorAsync::runSubrequest`, bounded by
fuel.  The first listing uses `max_keys = 1`, later ones `max_list_size`;
on a non-terminal page the cursor advances to the page's last key. -/
def runSubRec (ep : Endpoint) (cfg : Config) (endFile : Int) :
    Nat → Key → Bool → Except IterErr (List SubStep)
  | 0, _, _ => .error .fuel
  | fuel + 1, sa, first =>
    let req : SubReq := ⟨sa, if first then 1 else cfg.maxListSize⟩
    match ep req with
    | .error e => .error (.s3 e)
    | .ok page =>
      match subTermCheck cfg endFile page with
      | .error e => .error e
      | .ok true => .ok [⟨req, page⟩]
      | .ok false =>
        match page.objects.getLast? with
        | none => .error .emptyBack
        | some last =>
          match runSubRec ep cfg endFile fuel last.key false with
          | .error e => .error e
          | .ok rest => .ok (⟨req, page⟩ :: rest)

/-- The two `FileRepresentation` constructions at the top of `fillCache`:
`file_start` from the first key and `file_end` from the last key, both with
the shared prefix stripped (`substr(path_prefix.size())`). -/
def fillCacheEnc (cfg : Config) (firstKey lastKey : Key) : Except IterErr (Nat × Nat) :=
  match encodeKey (firstKey.drop cfg.prefixPath.length) with
  | none => .error .badInput
  | some fs =>
    match encodeKey (lastKey.drop cfg.prefixPath.length) with
    | none => .error .badInput
    | some fe => .ok (fs, fe)

/-- `file_end - file_start` in `fillCache` (a signed `cpp_int`). -/
def pageDistance (cfg : Config) (firstKey lastKey : Key) : Except IterErr Int :=
  (fillCacheEnc cfg firstKey lastKey).map (fun p => ((p.2 : Int) - (p.1 : Int)))

/-- `distance` after `distance *= lenght_decrease`. -/
def scaledDistance (cfg : Config) (fs fe : Nat) : Int :=
  scaleShrink ((fe : Int) - (fs : Int)) cfg.multiplicationLength

/-- The windows scheduled by `fillCache`'s loop: for `i < num_requests`,
`start_i = file_end + 1 + distance * i` and `end_i = start_i + distance`. -/
def windowList (cfg : Config) (fs fe : Nat) : List (Int × Int) :=
  (List.range cfg.numParallelRequests).map (fun (i : Nat) =>
    ((fe : Int) + 1 + scaledDistance cfg fs fe * (i : Int),
     (fe : Int) + 1 + scaledDistance cfg fs fe * (i : Int) + scaledDistance cfg fs fe))

/-- One scheduled worker: `runSubrequest(start, end)` with the absolute
start-after key `path_prefix + start.toString()`. -/
def workerWindow (ep : Endpoint) (cfg : Config) (w : Int × Int) :
    Except IterErr (List SubStep) :=
  runSubRec ep cfg w.2 cfg.fuel (cfg.prefixPath ++ decodeInt w.1) true

/-- `S3IteratorAsync::fillCache`: encode the page endpoints, scale the
distance, schedule one worker per window, wait for all of them
(sequentialised: every trace is folded into the cache), then `build`. -/
def fillCache (ep : Endpoint) (cfg : Config) (c : QueryCache) (firstKey lastKey : Key) :
    Except IterErr QueryCache :=
  match fillCacheEnc cfg firstKey lastKey with
  | .error e => .error e
  | .ok p =>
    match (windowList cfg p.1 p.2).mapM (workerWindow ep cfg) with
    | .error e => .error e
    | .ok traces =>
      .ok ((traces.foldl (fun acc t => acc.insertObjects (stepsObjects t)) c).build)

/-! ## The iterator step -/

/-- The mutable state of `S3IteratorAsync` between `next_batch` calls. -/
structure IterState where
  startAfter : Key
  cache : QueryCache
  cacheBuilded : Bool

/-- `S3IteratorAsync::getBatchAndCheckNext`.  First the cache is probed; a
full batch is emitted from the cache and the cursor moves to its last key.
Otherwise a live listing is issued with the unchanged cursor; its objects
are emitted, the cursor moves to `objects.back()` (undefined behaviour on an
empty page, surfaced as `emptyBack`), and — when parallel listing is on, the
page is truncated and `cache_builded` still holds — the cache is cleared,
`fillCache` runs, and `cache_builded` is set to `false`.  The returned bool
is `GetIsTruncated()` of the live page (or `true` on the cache path). -/
def step (ep : Endpoint) (cfg : Config) (s : IterState) :
    Except IterErr (IterState × List S3Object × Bool) :=
  match s.cache.getBatchFrom s.startAfter cfg.maxListSize with
  | none => .error .mapMiss
  | some cacheResult =>
    if cacheResult.length = cfg.maxListSize then
      match cacheResult.getLast? with
      | none => .error .emptyBack
      | some last => .ok ({ s with startAfter := last.key }, cacheResult, true)
    else
      match ep ⟨s.startAfter, cfg.maxListSize⟩ with
      | .error e => .error (.s3 e)
      | .ok page =>
        match page.objects.getLast? with
        | none => .error .emptyBack
        | some last =>
          if cfg.useParallelListing && page.truncated && s.cacheBuilded then
            match page.objects.head? with
            | none => .error .emptyBack
            | some firstObj =>
              match fillCache ep cfg (s.cache.clear) firstObj.key last.key with
              | .error e => .error e
              | .ok c' =>
                .ok ({ startAfter := last.key, cache := c', cacheBuilded := false },
                     page.objects, page.truncated)
          else
            .ok ({ s with startAfter := last.key }, page.objects, page.truncated)

/-- Iterate `step` `n` times, counting the steps on which `cache_builded`
falls from `true` to `false` — exactly the steps that run the prefetch cycle
(`cache.clear(); fillCache(...); cache_builded = false`), since no other
branch writes the flag. -/
def runCount (ep : Endpoint) (cfg : Config) : Nat → IterState →
    Except IterErr (IterState × Nat)
  | 0, s => .ok (s, 0)
  | n + 1, s =>
    match step ep cfg s with
    | .error e => .error e
    | .ok t =>
      match runCount ep cfg n t.1 with
      | .error e => .error e
      | .ok r2 =>
        .ok (r2.1, (if s.cacheBuilded && !t.1.cacheBuilded then 1 else 0) + r2.2)

/-! ## Concrete data for witnesses and counterexamples -/

/-- A stored object with key `"a"`. -/
def objA : S3Object := ⟨['a'], 1, 0, []⟩

/-- A stored object with key `"b"`. -/
def objB : S3Object := ⟨['b'], 2, 0, []⟩

/-- An endpoint whose listing is exhausted: `{objects: [], truncated: false}`. -/
def epEmptyDone : Endpoint := fun _ => .ok ⟨[], false⟩

/-- An endpoint returning a single final page containing `objB`. -/
def epB : Endpoint := fun _ => .ok ⟨[objB], false⟩

/-- A small configuration with parallel listing enabled. -/
def cfgW : Config := ⟨[], 2, true, 1, 1, 3⟩

/-- The initial iterator state: empty cache, `cache_builded = true`. -/
def iterStart : IterState := ⟨[], QueryCache.empty, true⟩

/-- An iterator state as left behind by the first prefetch:
`cache_builded = false`. -/
def iterAfter : IterState := ⟨[], QueryCache.empty, false⟩

/-- A built cache holding the single object `objA`. -/
def cacheOne : QueryCache := (QueryCache.empty.insertObjects [objA]).build

/-- A built cache holding `objA` and `objB`. -/
def cacheTwo : QueryCache := (QueryCache.empty.insertObjects [objA, objB]).build

/-! ## Order lemmas for the key comparison -/

theorem ltKey_irrefl : ∀ a : Key, ltKey a a = false := by
  intro a
  induction a with
  | nil => rfl
  | cons x xs ih =>
    simp only [ltKey]
    rw [if_neg (lt_irrefl x), if_neg (lt_irrefl x)]
    exact ih

theorem ltKey_asymm : ∀ a b : Key, ltKey a b = true → ltKey b a = false := by
  intro a
  induction a with
  | nil =>
    intro b hab
    cases b with
    | nil => exact Bool.noConfusion hab
    | cons y ys => rfl
  | cons x xs ih =>
    intro b hab
    cases b with
    | nil => exact Bool.noConfusion hab
    | cons y ys =>
      simp only [ltKey] at hab ⊢
      rcases lt_trichotomy x y with hxy | hxy | hxy
      · rw [if_neg (asymm hxy), if_pos hxy]
      · subst hxy
        rw [if_neg (lt_irrefl x), if_neg (lt_irrefl x)] at hab ⊢
        exact ih ys hab
      · rw [if_neg (asymm hxy), if_pos hxy] at hab
        exact Bool.noConfusion hab

theorem ltKey_trans : ∀ a b c : Key, ltKey a b = true → ltKey b c = true → ltKey a c = true := by
  intro a
  induction a with
  | nil =>
    intro b c hab hbc
    cases b with
    | nil => exact Bool.noConfusion hab
    | cons y ys =>
      cases c with
      | nil => exact Bool.noConfusion hbc
      | cons z zs => rfl
  | cons x xs ih =>
    intro b c hab hbc
    cases b with
    | nil => exact Bool.noConfusion hab
    | cons y ys =>
      cases c with
      | nil => exact Bool.noConfusion hbc
      | cons z zs =>
        simp only [ltKey] at hab hbc ⊢
        rcases lt_trichotomy x y with hxy | hxy | hxy
        · rcases lt_trichotomy y z with hyz | hyz | hyz
          · rw [if_pos (lt_trans hxy hyz)]
          · subst hyz; rw [if_pos hxy]
          · rw [if_neg (asymm hyz), if_pos hyz] at hbc
            exact Bool.noConfusion hbc
        · subst hxy
          rw [if_neg (lt_irrefl x), if_neg (lt_irrefl x)] at hab
          rcases lt_trichotomy x z with hxz | hxz | hxz
          · rw [if_pos hxz]
          · subst hxz
            rw [if_neg (lt_irrefl x), if_neg (lt_irrefl x)] at hbc ⊢
            exact ih ys zs hab hbc
          · rw [if_neg (asymm hxz), if_pos hxz] at hbc
            exact Bool.noConfusion hbc
        · rw [if_neg (asymm hxy), if_pos hxy] at hab
          exact Bool.noConfusion hab

theorem ltKey_connex : ∀ a b : Key, ltKey a b = false → ltKey b a = false → a = b := by
  intro a
  induction a with
  | nil =>
    intro b hab _
    cases b with
    | nil => rfl
    | cons y ys => exact Bool.noConfusion hab
  | cons x xs ih =>
    intro b hab hba
    cases b with
    | nil => exact Bool.noConfusion hba
    | cons y ys =>
      simp only [ltKey] at hab hba
      rcases lt_trichotomy x y with hxy | hxy | hxy
      · rw [if_pos hxy] at hab
        exact Bool.noConfusion hab
      · subst hxy
        rw [if_neg (lt_irrefl x), if_neg (lt_irrefl x)] at hab hba
        rw [ih ys hab hba]
      · rw [if_pos hxy] at hba
        exact Bool.noConfusion hba

/-- The source comparison agrees with Mathlib's lexicographic order on
character lists. -/
theorem ltKey_iff_lex : ∀ a b : Key, ltKey a b = true ↔ List.Lex (· < ·) a b := by
  intro a
  induction a with
  | nil =>
    intro b
    cases b with
    | nil => exact iff_of_false (fun h => Bool.noConfusion h) (List.Lex.not_nil_right _ _)
    | cons y ys => exact iff_of_true rfl List.Lex.nil
  | cons x xs ih =>
    intro b
    cases b with
    | nil => exact iff_of_false (fun h => Bool.noConfusion h) (List.Lex.not_nil_right _ _)
    | cons y ys =>
      simp only [ltKey]
      rcases lt_trichotomy x y with hxy | hxy | hxy
      · rw [if_pos hxy]
        exact iff_of_true rfl (List.Lex.rel hxy)
      · subst hxy
        rw [if_neg (lt_irrefl x), if_neg (lt_irrefl x)]
        constructor
        · intro h
          exact List.Lex.cons ((ih ys).mp h)
        · intro h
          cases h with
          | rel h2 => exact absurd h2 (lt_irrefl x)
          | cons h2 => exact (ih ys).mpr h2
      · rw [if_neg (asymm hxy), if_pos hxy]
        constructor
        · intro h
          exact Bool.noConfusion h
        · intro h
          cases h with
          | rel h2 => exact absurd h2 (asymm hxy)
          | cons h2 => exact absurd hxy (lt_irrefl _)

instance : IsTotal Key leKey := by
  constructor
  intro a b
  cases h : ltKey b a with
  | false => exact Or.inl h
  | true => exact Or.inr (ltKey_asymm b a h)

instance : IsTrans Key leKey := by
  constructor
  intro a b c hab hbc
  unfold leKey at hab hbc ⊢
  cases hca : ltKey c a with
  | false => rfl
  | true =>
    exfalso
    cases hbcv : ltKey b c with
    | true =>
      have hba := ltKey_trans b c a hbcv hca
      rw [hba] at hab
      exact Bool.noConfusion hab
    | false =>
      have hbceq : b = c := ltKey_connex b c hbcv hbc
      subst hbceq
      rw [hca] at hab
      exact Bool.noConfusion hab

instance : IsTrans Key keyLT := ⟨fun a b c => ltKey_trans a b c⟩

/-! ## Alphabet and encoding lemmas -/

theorem alphabet_len : alphabet.length = 64 := by decide

theorem alphabet_pairwise_lt : List.Pairwise (· < ·) alphabet := by decide

theorem charIndexAux_lt : ∀ (l : List Char) (c : Char) (i : Nat),
    charIndexAux c l = some i → i < l.length := by
  intro l
  induction l with
  | nil =>
    intro c i h
    exact Option.noConfusion h
  | cons x xs ih =>
    intro c i h
    simp only [charIndexAux] at h
    by_cases hx : x = c
    · rw [if_pos hx] at h
      injection h with h
      subst h
      simp
    · rw [if_neg hx] at h
      cases hi : charIndexAux c xs with
      | none =>
        rw [hi] at h
        exact Option.noConfusion h
      | some j =>
        rw [hi] at h
        injection h with h
        subst h
        have := ih c j hi
        simp only [List.length_cons]
        omega

theorem charIndexAux_getD : ∀ (l : List Char) (c : Char) (i : Nat),
    charIndexAux c l = some i → l.getD i '!' = c := by
  intro l
  induction l with
  | nil =>
    intro c i h
    exact Option.noConfusion h
  | cons x xs ih =>
    intro c i h
    simp only [charIndexAux] at h
    by_cases hx : x = c
    · rw [if_pos hx] at h
      injection h with h
      subst h
      simpa using hx
    · rw [if_neg hx] at h
      cases hi : charIndexAux c xs with
      | none =>
        rw [hi] at h
        exact Option.noConfusion h
      | some j =>
        rw [hi] at h
        injection h with h
        subst h
        simpa using ih c j hi

theorem charIndex_lt64 (c : Char) (i : Nat) (h : charIndex c = some i) : i < 64 := by
  have := charIndexAux_lt alphabet c i h
  rwa [alphabet_len] at this

theorem charIndex_getD (c : Char) (i : Nat) (h : charIndex c = some i) :
    alphabet.getD i '!' = c := charIndexAux_getD alphabet c i h

theorem charIndex_zero (c : Char) (h : charIndex c = some 0) : c = '!' := by
  have h2 := charIndex_getD c 0 h
  have h3 : alphabet.getD 0 '!' = '!' := by decide
  rw [h3] at h2
  exact h2.symm

theorem getD_eq_get (l : List Char) (i : Nat) (h : i < l.length) :
    l.getD i '!' = l.get ⟨i, h⟩ := by
  simp [List.getD_eq_getElem?_getD, List.getElem?_eq_getElem h]

theorem charIndex_strictMono (c d : Char) (i j : Nat)
    (hc : charIndex c = some i) (hd : charIndex d = some j) (hcd : c < d) : i < j := by
  have hi := charIndexAux_lt alphabet c i hc
  have hj := charIndexAux_lt alphabet d j hd
  have hgc : alphabet.getD i '!' = c := charIndex_getD c i hc
  have hgd : alphabet.getD j '!' = d := charIndex_getD d j hd
  rcases lt_trichotomy i j with h | h | h
  · exact h
  · subst h
    rw [hgc] at hgd
    exact absurd hgd (ne_of_lt hcd)
  · exfalso
    have hlt := List.pairwise_iff_get.mp alphabet_pairwise_lt ⟨j, hj⟩ ⟨i, hi⟩ h
    rw [← getD_eq_get alphabet j hj, ← getD_eq_get alphabet i hi, hgc, hgd] at hlt
    exact absurd hlt (asymm hcd)

theorem keyDigits_cons_eq (c : Char) (s : Key) :
    keyDigits (c :: s) = (charIndex c).bind (fun i => (keyDigits s).map (fun ds => i :: ds)) := by
  unfold keyDigits
  rw [List.mapM_cons]
  cases charIndex c with
  | none => rfl
  | some i =>
    cases s.mapM charIndex with
    | none => rfl
    | some ds => rfl

theorem encodeAux_eq : ∀ (s : Key) (a : Nat),
    encodeAux a s = (keyDigits s).map (fun ds => ds.foldl (fun n d => n * 64 + d) a) := by
  intro s
  induction s with
  | nil =>
    intro a
    rfl
  | cons c s ih =>
    intro a
    rw [keyDigits_cons_eq]
    cases hc : charIndex c with
    | none => simp [encodeAux, hc]
    | some i =>
      simp only [encodeAux, hc, Option.some_bind]
      rw [ih (a * alphabet.length + i)]
      cases hds : keyDigits s with
      | none => rfl
      | some ds => simp [alphabet_len]

theorem encodeKey_eq (s : Key) : encodeKey s = (keyDigits s).map keyVal := by
  simpa [keyVal] using encodeAux_eq s 0

theorem keyVal_foldl : ∀ (ds : List Nat) (a : Nat),
    ds.foldl (fun n d => n * 64 + d) a = a * 64 ^ ds.length + keyVal ds := by
  intro ds
  induction ds with
  | nil =>
    intro a
    simp [keyVal]
  | cons d ds ih =>
    intro a
    simp only [List.foldl_cons, List.length_cons]
    rw [ih (a * 64 + d)]
    have h2 : keyVal (d :: ds) = d * 64 ^ ds.length + keyVal ds := by
      simp only [keyVal, List.foldl_cons]
      simpa using ih d
    rw [h2]
    ring

theorem keyVal_cons (d : Nat) (ds : List Nat) :
    keyVal (d :: ds) = d * 64 ^ ds.length + keyVal ds := by
  simp only [keyVal, List.foldl_cons]
  simpa using keyVal_foldl ds d

theorem keyVal_lt (ds : List Nat) (h : ∀ d ∈ ds, d < 64) : keyVal ds < 64 ^ ds.length := by
  induction ds with
  | nil => simp [keyVal]
  | cons d ds ih =>
    rw [List.length_cons]
    have hd : d < 64 := h d (List.mem_cons_self d ds)
    have hds := ih (fun x hx => h x (List.mem_cons_of_mem d hx))
    calc keyVal (d :: ds) = d * 64 ^ ds.length + keyVal ds := keyVal_cons d ds
    _ < d * 64 ^ ds.length + 64 ^ ds.length := by omega
    _ = (d + 1) * 64 ^ ds.length := by ring
    _ ≤ 64 * 64 ^ ds.length := Nat.mul_le_mul_right _ (by omega)
    _ = 64 ^ (ds.length + 1) := by rw [pow_succ]; ring

theorem keyDigits_nil : keyDigits [] = some [] := rfl

theorem keyDigits_cons (c : Char) (s : Key) (i : Nat) (ds : List Nat)
    (hc : charIndex c = some i) (hs : keyDigits s = some ds) :
    keyDigits (c :: s) = some (i :: ds) := by
  simp only [keyDigits, List.mapM_cons] at *
  rw [hc, hs]
  rfl

theorem keyDigits_cons_elim (c : Char) (s : Key) (ds : List Nat)
    (h : keyDigits (c :: s) = some ds) :
    ∃ i es, charIndex c = some i ∧ keyDigits s = some es ∧ ds = i :: es := by
  simp only [keyDigits, List.mapM_cons] at h
  cases hc : charIndex c with
  | none =>
    rw [hc] at h
    simp at h
  | some i =>
    rw [hc] at h
    cases hs : s.mapM charIndex with
    | none =>
      rw [hs] at h
      simp at h
    | some es =>
      rw [hs] at h
      simp only [Option.bind_some, Option.pure_def] at h
      refine ⟨i, es, rfl, hs, ?_⟩
      injection h with h
      exact h.symm

theorem keyDigits_bound : ∀ (s : Key) (ds : List Nat), keyDigits s = some ds →
    ∀ d ∈ ds, d < 64 := by
  intro s
  induction s with
  | nil =>
    intro ds h d hd
    rw [keyDigits_nil] at h
    injection h with h
    subst h
    simp at hd
  | cons c s ih =>
    intro ds h d hd
    obtain ⟨i, es, hc, hs, rfl⟩ := keyDigits_cons_elim c s ds h
    rcases List.mem_cons.mp hd with rfl | hmem
    · exact charIndex_lt64 c d hc
    · exact ih es hs d hmem

theorem keyDigits_length : ∀ (s : Key) (ds : List Nat), keyDigits s = some ds →
    ds.length = s.length := by
  intro s
  induction s with
  | nil =>
    intro ds h
    rw [keyDigits_nil] at h
    injection h with h
    subst h
    rfl
  | cons c s ih =>
    intro ds h
    obtain ⟨i, es, _, hs, rfl⟩ := keyDigits_cons_elim c s ds h
    simp [ih es hs]

theorem keyDigits_map_getD : ∀ (s : Key) (ds : List Nat), keyDigits s = some ds →
    ds.map (fun d => alphabet.getD d '!') = s := by
  intro s
  induction s with
  | nil =>
    intro ds h
    rw [keyDigits_nil] at h
    injection h with h
    subst h
    rfl
  | cons c s ih =>
    intro ds h
    obtain ⟨i, es, hc, hs, rfl⟩ := keyDigits_cons_elim c s ds h
    simp only [List.map_cons]
    rw [charIndex_getD c i hc, ih es hs]

theorem keyDigits_head (s : Key) (ds : List Nat) (h : keyDigits s = some ds) :
    ds.head? = s.head?.bind charIndex := by
  cases s with
  | nil =>
    rw [keyDigits_nil] at h
    injection h with h
    subst h
    rfl
  | cons c s' =>
    obtain ⟨i, es, hc, _, rfl⟩ := keyDigits_cons_elim c s' ds h
    simp [hc]

/-! ## Decoding lemmas -/

theorem decodeNatAux_congr : ∀ (f1 f2 n : Nat), n ≤ f1 → n ≤ f2 →
    decodeNatAux f1 n = decodeNatAux f2 n := by
  intro f1
  induction f1 with
  | zero =>
    intro f2 n h1 h2
    have hn : n = 0 := Nat.le_zero.mp h1
    subst hn
    cases f2 <;> simp [decodeNatAux]
  | succ f ih =>
    intro f2 n h1 h2
    cases n with
    | zero => cases f2 <;> simp [decodeNatAux]
    | succ m =>
      cases f2 with
      | zero => omega
      | succ f2' =>
        simp only [decodeNatAux, Nat.succ_ne_zero, if_false, alphabet_len]
        congr 1
        have hdiv : (m + 1) / 64 < m + 1 :=
          Nat.div_lt_self (Nat.succ_pos m) (by norm_num)
        exact ih f2' ((m + 1) / 64) (by omega) (by omega)

theorem decodeNat_zero : decodeNat 0 = [] := rfl

theorem decodeNat_step (n : Nat) (h : 0 < n) :
    decodeNat n = decodeNat (n / 64) ++ [alphabet.getD (n % 64) '!'] := by
  unfold decodeNat
  cases n with
  | zero => omega
  | succ m =>
    simp only [decodeNatAux, Nat.succ_ne_zero, if_false, alphabet_len]
    congr 1
    have hdiv : (m + 1) / 64 < m + 1 :=
      Nat.div_lt_self (Nat.succ_pos m) (by norm_num)
    exact decodeNatAux_congr m ((m + 1) / 64) ((m + 1) / 64) (by omega) (le_refl _)

theorem decode_keyVal : ∀ ds : List Nat, (∀ d ∈ ds, d < 64) → ds.head? ≠ some 0 →
    decodeNat (keyVal ds) = ds.map (fun d => alphabet.getD d '!') := by
  intro ds
  induction ds using List.reverseRecOn with
  | nil =>
    intro _ _
    rfl
  | append_singleton ds d ih =>
    intro hb hh
    have hd : d < 64 := hb d (by simp)
    have hkv : keyVal (ds ++ [d]) = keyVal ds * 64 + d := by
      simp only [keyVal, List.foldl_append, List.foldl_cons, List.foldl_nil]
    cases ds with
    | nil =>
      have hd0 : d ≠ 0 := by
        intro hcon
        subst hcon
        simp at hh
      rw [hkv]
      simp only [keyVal, List.foldl_nil, Nat.zero_mul, Nat.zero_add]
      rw [decodeNat_step d (Nat.pos_of_ne_zero hd0)]
      rw [Nat.div_eq_of_lt hd, Nat.mod_eq_of_lt hd, decodeNat_zero]
      simp
    | cons d0 rest =>
      have hd0 : d0 ≠ 0 := by
        intro hcon
        subst hcon
        simp at hh
      have hpos : 0 < keyVal (d0 :: rest) := by
        rw [keyVal_cons]
        have hp : 0 < 64 ^ rest.length := Nat.pos_pow_of_pos _ (by norm_num)
        have hm : 64 ^ rest.length ≤ d0 * 64 ^ rest.length :=
          Nat.le_mul_of_pos_left _ (Nat.pos_of_ne_zero hd0)
        omega
      rw [hkv]
      have hstep := decodeNat_step (keyVal (d0 :: rest) * 64 + d) (by omega)
      have hdiv : (keyVal (d0 :: rest) * 64 + d) / 64 = keyVal (d0 :: rest) := by omega
      have hmod : (keyVal (d0 :: rest) * 64 + d) % 64 = d := by omega
      rw [hdiv, hmod] at hstep
      rw [hstep]
      rw [ih (fun x hx => hb x (List.mem_append_left _ hx)) (by simpa using hd0)]
      simp

/-! ## Monotonicity of the encoding -/

theorem keyVal_lt_of_ltKey : ∀ (a b : Key) (da db : List Nat),
    ltKey a b = true → a.length = b.length →
    keyDigits a = some da → keyDigits b = some db → keyVal da < keyVal db := by
  intro a
  induction a with
  | nil =>
    intro b da db hab hlen _ _
    cases b with
    | nil => exact Bool.noConfusion hab
    | cons y ys => simp at hlen
  | cons x xs ih =>
    intro b da db hab hlen hda hdb
    cases b with
    | nil => exact Bool.noConfusion hab
    | cons y ys =>
      obtain ⟨i, es, hci, hes, rfl⟩ := keyDigits_cons_elim x xs da hda
      obtain ⟨j, fs, hcj, hfs, rfl⟩ := keyDigits_cons_elim y ys db hdb
      have hlen2 : xs.length = ys.length := by simpa using hlen
      have hlesfs : es.length = fs.length := by
        rw [keyDigits_length xs es hes, keyDigits_length ys fs hfs, hlen2]
      simp only [ltKey] at hab
      rcases lt_trichotomy x y with hxy | hxy | hxy
      · have hij : i < j := charIndex_strictMono x y i j hci hcj hxy
        have hbound : keyVal es < 64 ^ es.length :=
          keyVal_lt es (keyDigits_bound xs es hes)
        rw [keyVal_cons, keyVal_cons, hlesfs]
        have h1 : (i + 1) * 64 ^ fs.length ≤ j * 64 ^ fs.length :=
          Nat.mul_le_mul_right _ (by omega)
        have h2 : keyVal es < 64 ^ fs.length := by rwa [hlesfs] at hbound
        nlinarith [Nat.zero_le (keyVal fs)]
      · subst hxy
        rw [hci] at hcj
        injection hcj with hij
        subst hij
        rw [if_neg (lt_irrefl x), if_neg (lt_irrefl x)] at hab
        have := ih ys es fs hab hlen2 hes hfs
        rw [keyVal_cons, keyVal_cons, hlesfs]
        omega
      · rw [if_neg (asymm hxy), if_pos hxy] at hab
        exact Bool.noConfusion hab

theorem keyVal_le_of_ltKey : ∀ (a b : Key) (da db : List Nat),
    ltKey a b = true → a.length ≤ b.length →
    keyDigits a = some da → keyDigits b = some db → keyVal da ≤ keyVal db := by
  intro a
  induction a with
  | nil =>
    intro b da db _ _ hda _
    rw [keyDigits_nil] at hda
    injection hda with hda
    subst hda
    simp [keyVal]
  | cons x xs ih =>
    intro b da db hab hlen hda hdb
    cases b with
    | nil => exact Bool.noConfusion hab
    | cons y ys =>
      obtain ⟨i, es, hci, hes, rfl⟩ := keyDigits_cons_elim x xs da hda
      obtain ⟨j, fs, hcj, hfs, rfl⟩ := keyDigits_cons_elim y ys db hdb
      have hlen2 : xs.length ≤ ys.length := by simpa using hlen
      have hlesfs : es.length ≤ fs.length := by
        rw [keyDigits_length xs es hes, keyDigits_length ys fs hfs]
        exact hlen2
      have hpow : (64 : Nat) ^ es.length ≤ 64 ^ fs.length :=
        Nat.pow_le_pow_right (by norm_num) hlesfs
      simp only [ltKey] at hab
      rcases lt_trichotomy x y with hxy | hxy | hxy
      · have hij : i < j := charIndex_strictMono x y i j hci hcj hxy
        have hbound : keyVal es < 64 ^ es.length :=
          keyVal_lt es (keyDigits_bound xs es hes)
        rw [keyVal_cons, keyVal_cons]
        have h1 : (i + 1) * 64 ^ es.length ≤ j * 64 ^ es.length :=
          Nat.mul_le_mul_right _ (by omega)
        have h2 : j * 64 ^ es.length ≤ j * 64 ^ fs.length :=
          Nat.mul_le_mul_left _ hpow
        nlinarith [Nat.zero_le (keyVal fs)]
      · subst hxy
        rw [hci] at hcj
        injection hcj with hij
        subst hij
        rw [if_neg (lt_irrefl x), if_neg (lt_irrefl x)] at hab
        have := ih ys es fs hab hlen2 hes hfs
        have h2 : i * 64 ^ es.length ≤ i * 64 ^ fs.length :=
          Nat.mul_le_mul_left _ hpow
        rw [keyVal_cons, keyVal_cons]
        omega
      · rw [if_neg (asymm hxy), if_pos hxy] at hab
        exact Bool.noConfusion hab

/-! ## Cache lemmas -/

theorem uniqAdj_sublist : ∀ l : List Key, List.Sublist (uniqAdj l) l := by
  intro l
  induction l with
  | nil => exact List.Sublist.refl []
  | cons a l ih =>
    cases l with
    | nil => simp [uniqAdj]
    | cons b rest =>
      simp only [uniqAdj]
      by_cases hab : a = b
      · rw [if_pos hab]
        exact ih.cons a
      · rw [if_neg hab]
        exact ih.cons₂ a

theorem uniqAdj_head : ∀ (x : Key) (xs : List Key), (uniqAdj (x :: xs)).head? = some x := by
  intro x xs
  induction xs generalizing x with
  | nil => rfl
  | cons b rest ih =>
    simp only [uniqAdj]
    by_cases hab : x = b
    · subst hab
      rw [if_pos rfl]
      exact ih x
    · rw [if_neg hab]
      rfl

theorem uniqAdj_chain_ne : ∀ l : List Key, List.Chain' (fun a b => a ≠ b) (uniqAdj l) := by
  intro l
  induction l with
  | nil => simp [uniqAdj]
  | cons a l ih =>
    cases l with
    | nil => simp [uniqAdj]
    | cons b rest =>
      simp only [uniqAdj]
      by_cases hab : a = b
      · rw [if_pos hab]
        exact ih
      · rw [if_neg hab]
        rw [List.chain'_cons']
        refine ⟨?_, ih⟩
        intro y hy
        rw [uniqAdj_head b rest] at hy
        have hyb : b = y := by simpa using hy
        subst hyb
        exact hab

theorem chain'_and {α : Type} {R S : α → α → Prop} :
    ∀ {l : List α}, List.Chain' R l → List.Chain' S l →
      List.Chain' (fun a b => R a b ∧ S a b) l := by
  intro l
  induction l with
  | nil =>
    intro _ _
    simp
  | cons a l ih =>
    intro hR hS
    rw [List.chain'_cons'] at hR hS ⊢
    exact ⟨fun y hy => ⟨hR.1 y hy, hS.1 y hy⟩, ih hR.2 hS.2⟩

theorem pairwise_lt_uniqAdj (l : List Key) (h : List.Pairwise leKey l) :
    List.Pairwise keyLT (uniqAdj l) := by
  have hsub := uniqAdj_sublist l
  have hle : List.Pairwise leKey (uniqAdj l) := h.sublist hsub
  have hchainle : List.Chain' leKey (uniqAdj l) := hle.chain'
  have hchainne := uniqAdj_chain_ne l
  have hcombo := chain'_and hchainle hchainne
  have hchainlt : List.Chain' keyLT (uniqAdj l) := by
    refine hcombo.imp ?_
    intro a b hab
    obtain ⟨hle2, hne⟩ := hab
    unfold keyLT
    cases hab2 : ltKey a b with
    | true => rfl
    | false => exact absurd (ltKey_connex a b hab2 hle2) hne
  exact List.chain'_iff_pairwise.mp hchainlt

theorem build_extracted_pairwise (c : QueryCache) :
    List.Pairwise keyLT (c.build).extracted_keys := by
  show List.Pairwise keyLT (uniqAdj (List.insertionSort leKey _))
  apply pairwise_lt_uniqAdj
  exact List.sorted_insertionSort leKey _

theorem foldl_upd_mem : ∀ (q : List S3Object) (m : Key → Option S3Object) (k : Key),
    (∃ o ∈ q, o.key = k) →
    ∃ o, (q.foldl (fun m2 o => fun k2 => if k2 = o.key then some o else m2 k2) m) k = some o
            ∧ o.key = k := by
  intro q
  induction q using List.reverseRecOn with
  | nil =>
    intro m k h
    simp at h
  | append_singleton q o ih =>
    intro m k h
    rw [List.foldl_append, List.foldl_cons, List.foldl_nil]
    by_cases hk : k = o.key
    · refine ⟨o, ?_, hk.symm⟩
      simp [hk]
    · obtain ⟨o2, ho2mem, ho2key⟩ := h
      rcases List.mem_append.mp ho2mem with hmem | hmem
      · have := ih m k ⟨o2, hmem, ho2key⟩
        simpa [hk] using this
      · simp at hmem
        subst hmem
        exact absurd ho2key.symm hk

theorem foldl_upd_not_mem : ∀ (q : List S3Object) (m : Key → Option S3Object) (k : Key),
    (∀ o ∈ q, o.key ≠ k) →
    (q.foldl (fun m2 o => fun k2 => if k2 = o.key then some o else m2 k2) m) k = m k := by
  intro q
  induction q using List.reverseRecOn with
  | nil =>
    intro m k _
    rfl
  | append_singleton q o ih =>
    intro m k h
    rw [List.foldl_append, List.foldl_cons, List.foldl_nil]
    have hko : ¬ (k = o.key) := fun hc => (h o (by simp)) hc.symm
    simp only [if_neg hko]
    exact ih m k (fun o2 ho2 => h o2 (List.mem_append_left _ ho2))

theorem build_extracted_mem (c : QueryCache) (k : Key)
    (h : k ∈ (c.build).extracted_keys) :
    k ∈ c.extracted_keys ∨ ∃ o ∈ c.queue, o.key = k := by
  have h2 : k ∈ c.extracted_keys ++ c.queue.map (fun o => o.key) := by
    have hs := uniqAdj_sublist
      (List.insertionSort leKey (c.extracted_keys ++ c.queue.map (fun o => o.key)))
    have hperm := List.perm_insertionSort leKey
      (c.extracted_keys ++ c.queue.map (fun o => o.key))
    exact hperm.mem_iff.mp (hs.subset h)
  rcases List.mem_append.mp h2 with h3 | h3
  · exact Or.inl h3
  · right
    obtain ⟨o, ho, hk⟩ := List.mem_map.mp h3
    exact ⟨o, ho, hk⟩

theorem build_wf (c : QueryCache) (hwf : CacheWF c) : CacheWF (c.build) := by
  intro k hk
  have hmem := build_extracted_mem c k hk
  show ∃ o, (c.queue.foldl (fun m2 o => fun k2 => if k2 = o.key then some o else m2 k2)
        c.key_to_object) k = some o ∧ o.key = k
  by_cases hq : ∃ o ∈ c.queue, o.key = k
  · exact foldl_upd_mem c.queue c.key_to_object k hq
  · push_neg at hq
    rw [foldl_upd_not_mem c.queue c.key_to_object k hq]
    rcases hmem with h3 | h3
    · exact hwf k h3
    · obtain ⟨o, ho, hko⟩ := h3
      exact absurd hko (hq o ho)

theorem dropWhile_gt (after : Key) : ∀ l : List Key, List.Pairwise keyLT l →
    ∀ k ∈ l.dropWhile (fun k => !ltKey after k), keyLT after k := by
  intro l
  induction l with
  | nil =>
    intro _ k hk
    simp at hk
  | cons x xs ih =>
    intro hp k hk
    by_cases hx : ltKey after x = true
    · rw [List.dropWhile_cons, if_neg (by simp [hx])] at hk
      rcases List.mem_cons.mp hk with rfl | hmem
      · exact hx
      · have hxk : keyLT x k := (List.pairwise_cons.mp hp).1 k hmem
        exact ltKey_trans after x k hx hxk
    · rw [List.dropWhile_cons, if_pos (by simp [hx])] at hk
      exact ih (List.pairwise_cons.mp hp).2 k hk

theorem batchTake_sublist (count : Nat) : ∀ (l : List Key) (sz : Nat),
    List.Sublist (batchTake count l sz) l := by
  intro l
  induction l with
  | nil =>
    intro sz
    simp [batchTake]
  | cons k rest ih =>
    intro sz
    simp only [batchTake]
    by_cases h : sz + 1 = count
    · rw [if_pos h]
      exact (List.nil_sublist rest).cons₂ k
    · rw [if_neg h]
      exact (ih (sz + 1)).cons₂ k

theorem batchTake_length (count : Nat) : ∀ (l : List Key) (sz : Nat),
    sz < count → (batchTake count l sz).length + sz ≤ count := by
  intro l
  induction l with
  | nil =>
    intro sz h
    simp only [batchTake, List.length_nil]
    omega
  | cons k rest ih =>
    intro sz h
    simp only [batchTake]
    by_cases hc : sz + 1 = count
    · rw [if_pos hc]
      simp only [List.length_cons, List.length_nil]
      omega
    · rw [if_neg hc]
      have := ih (sz + 1) (by omega)
      simp only [List.length_cons]
      omega

theorem mapM_lookup (f : Key → Option S3Object) :
    ∀ ks : List Key, (∀ k ∈ ks, ∃ o, f k = some o ∧ o.key = k) →
    ∃ os, ks.mapM f = some os ∧ os.map (fun o => o.key) = ks := by
  intro ks
  induction ks with
  | nil =>
    intro _
    exact ⟨[], rfl, rfl⟩
  | cons k rest ih =>
    intro h
    obtain ⟨o, ho, hok⟩ := h k (List.mem_cons_self k rest)
    obtain ⟨os, hos, hoskeys⟩ := ih (fun k2 hk2 => h k2 (List.mem_cons_of_mem k hk2))
    refine ⟨o :: os, ?_, ?_⟩
    · rw [List.mapM_cons, ho, hos]
      rfl
    · simp [hok, hoskeys]

/-! ## Iterator-step lemmas -/

theorem step_builded_false (ep : Endpoint) (cfg : Config) (s : IterState)
    (hb : s.cacheBuilded = false) :
    ∀ r, step ep cfg s = .ok r → r.1.cacheBuilded = false ∧ r.1.cache = s.cache := by
  intro r h
  unfold step at h
  split at h
  · exact Except.noConfusion h
  · split at h
    · split at h
      · exact Except.noConfusion h
      · injection h with h
        subst h
        exact ⟨hb, rfl⟩
    · split at h
      · exact Except.noConfusion h
      · split at h
        · exact Except.noConfusion h
        · split at h
          · rename_i hcond
            rw [hb] at hcond
            simp at hcond
          · injection h with h
            subst h
            exact ⟨hb, rfl⟩

theorem runCount_builded_false (ep : Endpoint) (cfg : Config) :
    ∀ (n : Nat) (s : IterState), s.cacheBuilded = false →
    ∀ r, runCount ep cfg n s = .ok r →
      r.2 = 0 ∧ r.1.cache = s.cache ∧ r.1.cacheBuilded = false := by
  intro n
  induction n with
  | zero =>
    intro s hb r h
    simp only [runCount] at h
    injection h with h
    subst h
    exact ⟨rfl, rfl, hb⟩
  | succ n ih =>
    intro s hb r h
    simp only [runCount] at h
    split at h
    · exact Except.noConfusion h
    · rename_i t hs
      split at h
      · exact Except.noConfusion h
      · rename_i r2 hrc
        obtain ⟨hb1, hcache1⟩ := step_builded_false ep cfg s hb t hs
        obtain ⟨hcnt, hcache2, hb2⟩ := ih t.1 hb1 r2 hrc
        injection h with h
        subst h
        refine ⟨?_, ?_, hb2⟩
        · simp [hb, hcnt]
        · rw [hcache2, hcache1]

theorem stepsObjects_cons (st : SubStep) (rest : List SubStep) :
    stepsObjects (st :: rest) = st.page.objects ++ stepsObjects rest := by
  simp [stepsObjects]

theorem runSubRec_protocol (ep : Endpoint) (cfg : Config) (endFile : Int) :
    ∀ (fuel : Nat) (sa : Key) (first : Bool) (steps : List SubStep),
    runSubRec ep cfg endFile fuel sa first = .ok steps →
    steps.map (fun st => st.req.maxKeys)
        = (if first then 1 else cfg.maxListSize)
            :: List.replicate (steps.length - 1) cfg.maxListSize
    ∧ steps.head?.map (fun st => st.req.startAfter) = some sa
    ∧ List.Chain' (fun a b => ∃ last, a.page.objects.getLast? = some last
        ∧ b.req.startAfter = last.key) steps
    ∧ (∀ st ∈ steps.dropLast, subTermCheck cfg endFile st.page = .ok false)
    ∧ (∃ lastStep, steps.getLast? = some lastStep
        ∧ subTermCheck cfg endFile lastStep.page = .ok true)
    ∧ (∀ st ∈ steps, List.Sublist st.page.objects (stepsObjects steps)) := by
  intro fuel
  induction fuel with
  | zero =>
    intro sa first steps h
    simp only [runSubRec] at h
    exact Except.noConfusion h
  | succ fuel ih =>
    intro sa first steps h
    simp only [runSubRec] at h
    split at h
    · exact Except.noConfusion h
    · rename_i page hep
      split at h
      · exact Except.noConfusion h
      · rename_i htc
        injection h with h
        subst h
        refine ⟨by simp, rfl, by simp, by simp, ⟨_, rfl, htc⟩, ?_⟩
        intro st hst
        have hst2 : st = ⟨⟨sa, if first then 1 else cfg.maxListSize⟩, page⟩ := by
          simpa using hst
        subst hst2
        simp [stepsObjects]
      · rename_i htc
        split at h
        · exact Except.noConfusion h
        · rename_i last hl
          split at h
          · exact Except.noConfusion h
          · rename_i rest hrec
            injection h with h
            subst h
            obtain ⟨hmap, hhead, hchain, hdrop, hlast, hsub⟩ := ih last.key false rest hrec
            have hrestne : rest ≠ [] := by
              intro hcon
              subst hcon
              simp at hhead
            refine ⟨?_, rfl, ?_, ?_, ?_, ?_⟩
            · simp only [List.map_cons, hmap, List.length_cons]
              congr 1
              rw [if_neg (by simp : ¬ (false = true))]
              cases hrl : rest.length with
              | zero => exact absurd (List.length_eq_zero.mp hrl) hrestne
              | succ m => simp [List.replicate_succ]
            · rw [List.chain'_cons']
              refine ⟨?_, hchain⟩
              intro b hb2
              have hb3 : rest.head? = some b := hb2
              rw [hb3] at hhead
              have hb4 : b.req.startAfter = last.key := by simpa using hhead
              exact ⟨last, hl, hb4⟩
            · intro st hst
              cases rest with
              | nil => exact absurd rfl hrestne
              | cons r rs =>
                rw [List.dropLast_cons₂] at hst
                rcases List.mem_cons.mp hst with rfl | hmem
                · exact htc
                · exact hdrop st hmem
            · obtain ⟨lastStep, hgl, hterm⟩ := hlast
              refine ⟨lastStep, ?_, hterm⟩
              cases rest with
              | nil => exact absurd rfl hrestne
              | cons r rs =>
                rw [List.getLast?_cons_cons]
                exact hgl
            · intro st hst
              rw [stepsObjects_cons]
              rcases List.mem_cons.mp hst with rfl | hmem
              · exact List.sublist_append_left _ _
              · exact (hsub st hmem).trans (List.sublist_append_right _ _)

/-! ## Claims -/

/-- C1: the claim says that on the empty-prefix input (a successful live
page with no objects and `truncated = false`) `next_batch` returns `false`
with an empty batch, never touching the last element of the empty objects
vector.  The success branch of `getBatchAndCheckNext` in fact executes
`request->SetStartAfter(objects.back().GetKey())` unconditionally, which on
this input calls `back()` on an empty `std::vector` — undefined behaviour,
surfaced by the model as the `emptyBack` error. -/
theorem c1_empty_page_back_access :
    epEmptyDone ⟨[], cfgW.maxListSize⟩ = .ok ⟨[], false⟩
    ∧ step epEmptyDone cfgW iterStart = .error .emptyBack :=
  ⟨rfl, rfl⟩

/-- C2 counterexample: the key `"!"` is alphabet-conformant (its single
character is the first alphabet symbol), encodes to `0`, and decodes back
to the empty string rather than `"!"`. -/
theorem c2_roundtrip_counterexample :
    (encodeKey ['!']).map decodeNat = some [] ∧ ([] : Key) ≠ ['!'] :=
  ⟨by decide, by decide⟩

/-- C2 (amended): for every alphabet-conformant key that does not begin
with the lowest symbol `'!'`, decoding the encoding gives the key back, and
the integer zero decodes to the empty string.  (A leading `'!'` is a
leading base-64 zero digit, which `toString` cannot restore.) -/
theorem c2_roundtrip_amended (s : Key) (n : Nat)
    (henc : encodeKey s = some n) (hhead : s.head? ≠ some '!') :
    decodeNat n = s ∧ decodeNat 0 = [] := by
  refine ⟨?_, rfl⟩
  rw [encodeKey_eq] at henc
  cases hds : keyDigits s with
  | none =>
    rw [hds] at henc
    exact Option.noConfusion henc
  | some ds =>
    rw [hds] at henc
    injection henc with henc
    subst henc
    have hb := keyDigits_bound s ds hds
    have hh0 : ds.head? ≠ some 0 := by
      intro hcon
      have hhead2 := keyDigits_head s ds hds
      rw [hcon] at hhead2
      cases hs : s.head? with
      | none =>
        rw [hs] at hhead2
        simp at hhead2
      | some c =>
        rw [hs] at hhead2
        have hc0 : charIndex c = some 0 := by simpa using hhead2.symm
        have hc := charIndex_zero c hc0
        subst hc
        exact hhead hs
    rw [decode_keyVal ds hb hh0, keyDigits_map_getD s ds hds]

theorem c2_roundtrip_witness : decodeNat 37 = ['a'] ∧ decodeNat 0 = [] :=
  c2_roundtrip_amended ['a'] 37 (by decide) (by decide)

/-- C3 counterexample: the endpoint can return the lexicographically ordered
page `first = "00"`, `last = "1"` (both alphabet-conformant), yet
`encode("00") = 65 > 2 = encode("1")`, so `file_end - file_start` in
`fillCache` is negative: the caller-guaranteed precondition of
`FileRepresentation::operator-` is violated by keys of different lengths. -/
theorem c3_distance_counterexample :
    ltKey ['0', '0'] ['1'] = true
    ∧ pageDistance cfgW ['0', '0'] ['1'] = .ok (-63)
    ∧ ¬ (0 ≤ (-63 : Int)) :=
  ⟨by decide, rfl, by decide⟩

/-- C3 (amended): whenever the first key of the page (prefix stripped) is no
longer than its last key — in particular for any two alphabet-conformant
keys of equal length — the order of the page implies
`encode(first) ≤ encode(last)`, so the distance `file_end - file_start`
computed by `fillCache` is non-negative and the subtraction respects the
caller-guaranteed precondition. -/
theorem c3_distance_amended (cfg : Config) (firstKey lastKey : Key) (d : Int)
    (hlen : (firstKey.drop cfg.prefixPath.length).length
        ≤ (lastKey.drop cfg.prefixPath.length).length)
    (hord : ltKey (lastKey.drop cfg.prefixPath.length)
        (firstKey.drop cfg.prefixPath.length) = false)
    (hd : pageDistance cfg firstKey lastKey = .ok d) : 0 ≤ d := by
  unfold pageDistance at hd
  cases he : fillCacheEnc cfg firstKey lastKey with
  | error e =>
    rw [he] at hd
    exact Except.noConfusion hd
  | ok p =>
    rw [he] at hd
    injection hd with hd
    unfold fillCacheEnc at he
    split at he
    · exact Except.noConfusion he
    · rename_i fs hf
      split at he
      · exact Except.noConfusion he
      · rename_i fe hl2
        injection he with he
        subst he
        subst hd
        cases hfl : ltKey (firstKey.drop cfg.prefixPath.length)
            (lastKey.drop cfg.prefixPath.length) with
        | false =>
          have heq := ltKey_connex _ _ hfl hord
          rw [heq] at hf
          rw [hf] at hl2
          injection hl2 with hl2
          subst hl2
          simp
        | true =>
          rw [encodeKey_eq] at hf hl2
          cases hda : keyDigits (firstKey.drop cfg.prefixPath.length) with
          | none =>
            rw [hda] at hf
            exact Option.noConfusion hf
          | some da =>
            cases hdb : keyDigits (lastKey.drop cfg.prefixPath.length) with
            | none =>
              rw [hdb] at hl2
              exact Option.noConfusion hl2
            | some db =>
              rw [hda] at hf
              rw [hdb] at hl2
              injection hf with hf
              injection hl2 with hl2
              subst hf
              subst hl2
              have hle := keyVal_le_of_ltKey _ _ da db hfl hlen hda hdb
              simp only []
              omega

theorem c3_distance_witness :
    pageDistance cfgW ['0'] ['1', '0'] = .ok 128 ∧ (0 : Int) ≤ 128 :=
  ⟨rfl, c3_distance_amended cfgW ['0'] ['1', '0'] 128 (by decide) (by decide) rfl⟩

/-- C4 counterexample: an object staged by `insertObjects` and not yet built
survives `clear()` — the C++ `clear` resets `extracted_keys` and
`key_to_object` but not the lock-free staging stack — so a `build`
immediately after `clear` with no intervening `insertObjects` produces a
non-empty cache. -/
theorem c4_clear_counterexample :
    ((((QueryCache.empty.insertObjects [objA]).clear).build).extracted_keys = [['a']])
    ∧ ([['a']] : List Key) ≠ ([] : List Key) :=
  ⟨by decide, by decide⟩

/-- C4 (amended): `clear()` empties the sorted key vector and the
key-to-object map but leaves the staging queue untouched; a `build()`
immediately after `clear()` produces an empty cache exactly when nothing
was staged but unbuilt at the time of the `clear`. -/
theorem c4_clear_amended (c : QueryCache) :
    (c.clear).extracted_keys = []
    ∧ (c.clear).key_to_object = (fun _ => none)
    ∧ (c.clear).queue = c.queue
    ∧ (c.queue = [] →
        ((c.clear).build).extracted_keys = []
        ∧ ((c.clear).build).key_to_object = (fun _ => none)) := by
  refine ⟨rfl, rfl, rfl, ?_⟩
  intro hq
  have hcl : c.clear = ⟨[], fun _ => none, c.queue⟩ := rfl
  rw [hcl, hq]
  exact ⟨rfl, rfl⟩

theorem c4_clear_witness :
    (QueryCache.empty.clear).extracted_keys = []
    ∧ ((QueryCache.empty.clear).build).extracted_keys = [] :=
  ⟨(c4_clear_amended QueryCache.empty).1,
   ((c4_clear_amended QueryCache.empty).2.2.2 rfl).1⟩

/-- C9: for any two alphabet-conformant keys of equal length with the first
lexicographically smaller (the `std::string` comparison `ltKey`), the
base-64 encoding is strictly order-preserving. -/
theorem c9_encode_strict_mono (a b : Key) (m n : Nat)
    (ha : encodeKey a = some m) (hb : encodeKey b = some n)
    (hlen : a.length = b.length) (hab : ltKey a b = true) : m < n := by
  rw [encodeKey_eq] at ha hb
  cases hda : keyDigits a with
  | none =>
    rw [hda] at ha
    exact Option.noConfusion ha
  | some da =>
    cases hdb : keyDigits b with
    | none =>
      rw [hdb] at hb
      exact Option.noConfusion hb
    | some db =>
      rw [hda] at ha
      rw [hdb] at hb
      injection ha with ha
      injection hb with hb
      subst ha
      subst hb
      exact keyVal_lt_of_ltKey a b da db hab hlen hda hdb

theorem c9_encode_witness :
    encodeKey ['0'] = some 1 ∧ encodeKey ['1'] = some 2
    ∧ ltKey ['0'] ['1'] = true ∧ (1 : Nat) < 2 :=
  ⟨by decide, by decide, by decide,
   c9_encode_strict_mono ['0'] ['1'] 1 2 (by decide) (by decide) rfl (by decide)⟩

/-- C5: over any run of the iterator, the prefetch cycle (clear the cache,
dispatch the `fillCache` workers, build the cache) executes at most once:
the number of steps on which `cache_builded` falls from `true` to `false`
— exactly the steps that run the cycle, as no other branch writes the flag
— is at most 1; and once `cache_builded` is `false` (the state after the
first prefetch) every later step, truncated live pages included, leaves the
flag `false` and the cache untouched and triggers no further prefetch. -/
theorem c5_prefetch_at_most_once (ep : Endpoint) (cfg : Config) (n : Nat)
    (s : IterState) (r : IterState × Nat) (h : runCount ep cfg n s = .ok r) :
    r.2 ≤ 1 ∧ (s.cacheBuilded = false →
      r.2 = 0 ∧ r.1.cache = s.cache ∧ r.1.cacheBuilded = false) := by
  revert h
  revert r
  revert s
  induction n with
  | zero =>
    intro s r h
    simp only [runCount] at h
    injection h with h
    subst h
    exact ⟨Nat.zero_le 1, fun hb => ⟨rfl, rfl, hb⟩⟩
  | succ n ih =>
    intro s r h
    simp only [runCount] at h
    split at h
    · exact Except.noConfusion h
    · rename_i t hs
      split at h
      · exact Except.noConfusion h
      · rename_i r2 hrc
        injection h with h
        subst h
        constructor
        · cases hsb : s.cacheBuilded with
          | false =>
            obtain ⟨hb1, _⟩ := step_builded_false ep cfg s hsb t hs
            obtain ⟨hcnt, _, _⟩ := runCount_builded_false ep cfg n t.1 hb1 r2 hrc
            simp [hsb, hcnt]
          | true =>
            cases ht : t.1.cacheBuilded with
            | false =>
              obtain ⟨hcnt, _, _⟩ := runCount_builded_false ep cfg n t.1 ht r2 hrc
              simp [hsb, ht, hcnt]
            | true =>
              have hle := (ih t.1 r2 hrc).1
              simp only [hsb, ht, Bool.not_true, Bool.and_false]
              simpa using hle
        · intro hb
          obtain ⟨hb1, hc1⟩ := step_builded_false ep cfg s hb t hs
          obtain ⟨hcnt, hc2, hb2⟩ := runCount_builded_false ep cfg n t.1 hb1 r2 hrc
          refine ⟨by simp [hb, hcnt], ?_, hb2⟩
          show r2.1.cache = s.cache
          rw [hc2, hc1]

theorem c5_prefetch_witness :
    ((0 : Nat) ≤ 1)
    ∧ (iterAfter.cacheBuilded = false →
        (0 : Nat) = 0
        ∧ (⟨['b'], QueryCache.empty, false⟩ : IterState).cache = iterAfter.cache
        ∧ (⟨['b'], QueryCache.empty, false⟩ : IterState).cacheBuilded = false) :=
  c5_prefetch_at_most_once epB cfgW 1 iterAfter (⟨['b'], QueryCache.empty, false⟩, 0) rfl

/-- C6: a subrange worker issues its first listing with `max_keys = 1` and
all later listings with `max_list_size`; every received page (the terminal
one included) is inserted into the cache; the worker stops exactly on a
page passing the termination test (`!truncated`, or an empty page, or
`end_file ≤ encode(last key with the prefix stripped)`), and after every
non-terminal page continues with `start_after` set to that page's last
key. -/
theorem c6_worker_protocol (ep : Endpoint) (cfg : Config) (endFile : Int)
    (fuel : Nat) (sa : Key) (steps : List SubStep)
    (h : runSubRec ep cfg endFile fuel sa true = .ok steps) :
    steps.map (fun st => st.req.maxKeys)
        = 1 :: List.replicate (steps.length - 1) cfg.maxListSize
    ∧ steps.head?.map (fun st => st.req.startAfter) = some sa
    ∧ List.Chain' (fun a b => ∃ last, a.page.objects.getLast? = some last
        ∧ b.req.startAfter = last.key) steps
    ∧ (∀ st ∈ steps.dropLast, subTermCheck cfg endFile st.page = .ok false)
    ∧ (∃ lastStep, steps.getLast? = some lastStep
        ∧ subTermCheck cfg endFile lastStep.page = .ok true)
    ∧ (∀ st ∈ steps, List.Sublist st.page.objects (stepsObjects steps)) := by
  have hp := runSubRec_protocol ep cfg endFile fuel sa true steps h
  simpa using hp

theorem c6_worker_witness :
    ([⟨⟨[], 1⟩, ⟨[], false⟩⟩] : List SubStep).map (fun st => st.req.maxKeys)
        = 1 :: List.replicate (([⟨⟨[], 1⟩, ⟨[], false⟩⟩] : List SubStep).length - 1)
            cfgW.maxListSize
    ∧ (([⟨⟨[], 1⟩, ⟨[], false⟩⟩] : List SubStep).head?).map (fun st => st.req.startAfter)
        = some []
    ∧ List.Chain' (fun a b => ∃ last, a.page.objects.getLast? = some last
        ∧ b.req.startAfter = last.key) ([⟨⟨[], 1⟩, ⟨[], false⟩⟩] : List SubStep)
    ∧ (∀ st ∈ ([⟨⟨[], 1⟩, ⟨[], false⟩⟩] : List SubStep).dropLast,
        subTermCheck cfgW 0 st.page = .ok false)
    ∧ (∃ lastStep, ([⟨⟨[], 1⟩, ⟨[], false⟩⟩] : List SubStep).getLast? = some lastStep
        ∧ subTermCheck cfgW 0 lastStep.page = .ok true)
    ∧ (∀ st ∈ ([⟨⟨[], 1⟩, ⟨[], false⟩⟩] : List SubStep),
        List.Sublist st.page.objects (stepsObjects [⟨⟨[], 1⟩, ⟨[], false⟩⟩])) :=
  c6_worker_protocol epEmptyDone cfgW 0 3 [] [⟨⟨[], 1⟩, ⟨[], false⟩⟩] rfl

/-- C7: a successful `fillCache` encodes the first page's endpoints (prefix
stripped), scales their distance by the shrink factor through the
decimal-float intermediate (`scaleShrink`), schedules for every
`i < num_requests` one worker over the window starting at
`file_end + 1 + d·i` and ending at that start plus `d`, and calls `build`
on the cache only after the traces of all scheduled workers have been
folded into it (the sequential image of `pool.wait()` before
`cache.build()`). -/
theorem c7_fillCache_plan (ep : Endpoint) (cfg : Config) (c : QueryCache)
    (firstKey lastKey : Key)
    (h : ∃ c2, fillCache ep cfg c firstKey lastKey = .ok c2) :
    ∃ fs fe traces,
      fillCacheEnc cfg firstKey lastKey = .ok (fs, fe)
      ∧ (windowList cfg fs fe).length = cfg.numParallelRequests
      ∧ (∀ i, i < cfg.numParallelRequests →
          (windowList cfg fs fe).get? i = some
            ((fe : Int) + 1
                + scaleShrink ((fe : Int) - (fs : Int)) cfg.multiplicationLength * (i : Int),
             (fe : Int) + 1
                + scaleShrink ((fe : Int) - (fs : Int)) cfg.multiplicationLength * (i : Int)
                + scaleShrink ((fe : Int) - (fs : Int)) cfg.multiplicationLength))
      ∧ (windowList cfg fs fe).mapM (workerWindow ep cfg) = .ok traces
      ∧ fillCache ep cfg c firstKey lastKey
          = .ok ((traces.foldl (fun acc t => acc.insertObjects (stepsObjects t)) c).build) := by
  obtain ⟨c2, h⟩ := h
  have h0 := h
  unfold fillCache at h
  split at h
  · exact Except.noConfusion h
  · rename_i p henc
    split at h
    · exact Except.noConfusion h
    · rename_i traces htr
      refine ⟨p.1, p.2, traces, henc, ?_, ?_, htr, ?_⟩
      · unfold windowList
        rw [List.length_map, List.length_range]
      · intro i hi
        unfold windowList
        rw [List.get?_map, List.get?_range hi]
        rfl
      · injection h with h
        rw [h]
        exact h0

theorem c7_fillCache_witness :
    ∃ fs fe traces,
      fillCacheEnc cfgW ['0'] ['1'] = .ok (fs, fe)
      ∧ (windowList cfgW fs fe).length = cfgW.numParallelRequests
      ∧ (∀ i, i < cfgW.numParallelRequests →
          (windowList cfgW fs fe).get? i = some
            ((fe : Int) + 1
                + scaleShrink ((fe : Int) - (fs : Int)) cfgW.multiplicationLength * (i : Int),
             (fe : Int) + 1
                + scaleShrink ((fe : Int) - (fs : Int)) cfgW.multiplicationLength * (i : Int)
                + scaleShrink ((fe : Int) - (fs : Int)) cfgW.multiplicationLength))
      ∧ (windowList cfgW fs fe).mapM (workerWindow epEmptyDone cfgW) = .ok traces
      ∧ fillCache epEmptyDone cfgW QueryCache.empty ['0'] ['1']
          = .ok ((traces.foldl (fun acc t => acc.insertObjects (stepsObjects t))
              QueryCache.empty).build) :=
  c7_fillCache_plan epEmptyDone cfgW QueryCache.empty ['0'] ['1'] ⟨_, rfl⟩

/-- C8 counterexample: `getBatchFrom` tests `result.size() == count` only
after pushing each object, so with `count = 0` the loop never breaks and
the call returns every cached object past `after_key` — more than `n = 0`
objects. -/
theorem c8_batch_counterexample :
    (cacheTwo.getBatchFrom [] 0).map List.length = some 2 ∧ ¬ ((2 : Nat) ≤ 0) :=
  ⟨by decide, by decide⟩

/-- C8 (amended): after `build()` on a well-formed cache the extracted key
vector is strictly sorted and duplicate-free, the key-to-object map holds
exactly one object (carrying that key) per extracted key, and for every
`after_key` and every `n ≥ 1` the lookup returns at most `n` objects whose
keys are strictly ascending and all strictly greater than `after_key`.
(For `n = 0` the size check never fires — see the counterexample.) -/
theorem c8_cache_invariants (c : QueryCache) (hwf : CacheWF c) :
    CacheWF (c.build)
    ∧ List.Pairwise keyLT ((c.build).extracted_keys)
    ∧ ∀ (after : Key) (count : Nat), 1 ≤ count →
        ∃ os, (c.build).getBatchFrom after count = some os
          ∧ os.length ≤ count
          ∧ List.Pairwise keyLT (os.map (fun o => o.key))
          ∧ ∀ o ∈ os, keyLT after o.key := by
  have hwfb := build_wf c hwf
  have hpw := build_extracted_pairwise c
  refine ⟨hwfb, hpw, ?_⟩
  intro after count hcount
  have hdl_sub_l : List.Sublist
      (((c.build).extracted_keys).dropWhile (fun k => !ltKey after k))
      ((c.build).extracted_keys) := List.dropWhile_sublist _
  have hks_sub_dl : List.Sublist
      (batchTake count (((c.build).extracted_keys).dropWhile (fun k => !ltKey after k)) 0)
      (((c.build).extracted_keys).dropWhile (fun k => !ltKey after k)) :=
    batchTake_sublist count _ 0
  have hks_sub_l := hks_sub_dl.trans hdl_sub_l
  have hks_pw : List.Pairwise keyLT
      (batchTake count (((c.build).extracted_keys).dropWhile (fun k => !ltKey after k)) 0) :=
    hpw.sublist hks_sub_l
  have hks_gt : ∀ k ∈ batchTake count
      (((c.build).extracted_keys).dropWhile (fun k => !ltKey after k)) 0, keyLT after k :=
    fun k hk => dropWhile_gt after _ hpw k (hks_sub_dl.subset hk)
  have hlookup : ∀ k ∈ batchTake count
      (((c.build).extracted_keys).dropWhile (fun k => !ltKey after k)) 0,
      ∃ o, (c.build).key_to_object k = some o ∧ o.key = k :=
    fun k hk => hwfb k (hks_sub_l.subset hk)
  obtain ⟨os, hos, hkeys⟩ := mapM_lookup ((c.build).key_to_object) _ hlookup
  refine ⟨os, hos, ?_, ?_, ?_⟩
  · have hbl := batchTake_length count
      (((c.build).extracted_keys).dropWhile (fun k => !ltKey after k)) 0 (by omega)
    have hlen2 : os.length = (batchTake count
        (((c.build).extracted_keys).dropWhile (fun k => !ltKey after k)) 0).length := by
      rw [← hkeys, List.length_map]
    omega
  · rw [hkeys]
    exact hks_pw
  · intro o ho
    have hk : o.key ∈ batchTake count
        (((c.build).extracted_keys).dropWhile (fun k => !ltKey after k)) 0 := by
      rw [← hkeys]
      exact List.mem_map_of_mem _ ho
    exact hks_gt o.key hk

theorem c8_cache_witness :
    ∃ os, ((QueryCache.empty.insertObjects [objA, objB]).build).getBatchFrom [] 1 = some os
      ∧ os.length ≤ 1
      ∧ List.Pairwise keyLT (os.map (fun o => o.key))
      ∧ ∀ o ∈ os, keyLT [] o.key :=
  (c8_cache_invariants (QueryCache.empty.insertObjects [objA, objB])
      (fun _ hk => absurd hk (List.not_mem_nil _))).2.2 [] 1 (le_refl 1)

/-- C10: whenever the cache probe returns fewer than `max_list_size`
objects — a non-empty partial result included — a successful `next_batch`
emits none of those cached objects: the emitted batch is exactly the page
of a fresh live listing issued with the unchanged start-after cursor, the
returned bool is that page's truncation flag, and the cursor is then
advanced to the live page's last key. -/
theorem c10_shortCache_live_fallback (ep : Endpoint) (cfg : Config)
    (s : IterState) (cres : List S3Object) (page : Page)
    (s2 : IterState) (batch : List S3Object) (more : Bool)
    (hc : s.cache.getBatchFrom s.startAfter cfg.maxListSize = some cres)
    (hlen : cres.length ≠ cfg.maxListSize)
    (hep : ep ⟨s.startAfter, cfg.maxListSize⟩ = .ok page)
    (hstep : step ep cfg s = .ok (s2, batch, more)) :
    batch = page.objects ∧ more = page.truncated
    ∧ ∃ last, page.objects.getLast? = some last ∧ s2.startAfter = last.key := by
  unfold step at hstep
  simp only [hc] at hstep
  rw [if_neg hlen] at hstep
  simp only [hep] at hstep
  split at hstep
  · exact Except.noConfusion hstep
  · rename_i last hl
    split at hstep
    · split at hstep
      · exact Except.noConfusion hstep
      · rename_i firstObj hfirst
        split at hstep
        · exact Except.noConfusion hstep
        · rename_i c3 hfc
          injection hstep with hstep
          simp only [Prod.mk.injEq] at hstep
          obtain ⟨h1, h2, h3⟩ := hstep
          subst h1
          subst h2
          subst h3
          exact ⟨rfl, rfl, last, hl, rfl⟩
    · injection hstep with hstep
      simp only [Prod.mk.injEq] at hstep
      obtain ⟨h1, h2, h3⟩ := hstep
      subst h1
      subst h2
      subst h3
      exact ⟨rfl, rfl, last, hl, rfl⟩

theorem c10_shortCache_witness :
    ([objB] : List S3Object) = (⟨[objB], false⟩ : Page).objects
    ∧ false = (⟨[objB], false⟩ : Page).truncated
    ∧ ∃ last, (⟨[objB], false⟩ : Page).objects.getLast? = some last
        ∧ (⟨['b'], cacheOne, false⟩ : IterState).startAfter = last.key :=
  c10_shortCache_live_fallback epB cfgW ⟨[], cacheOne, false⟩ [objA] ⟨[objB], false⟩
    ⟨['b'], cacheOne, false⟩ [objB] false rfl (by decide) rfl rfl

end S3V
